import Mathlib

/-!
Verification development for the `genfut` generator (src/lib.rs, src/genc.rs,
src/static/build.rs).  The Rust sources are shallowly embedded: the per-backend
API model and the cross-backend equivalence check (`genfut`, src/lib.rs lines
147-231), the two header-scanning regexes (`re_array_types`, `re_entry_points`),
the external `futhark` command invocations, the ordering of the pipeline's
observable steps, and the error handling of its filesystem operations.
-/

namespace Genfut

/-- The data pushed onto `check_equivalent` for one backend in `genfut`
(src/lib.rs lines 208-212): the backend name, the captured array-type strings
(capture group 1 of `re_array_types`, in match order) and the captured
entry-point statements (whole matches of `re_entry_points`, in match order).
Strings are represented as lists of characters. -/
structure BackendModel where
  backend : String
  arrayTypes : List (List Char)
  entryPoints : List (List Char)
deriving DecidableEq

/-- The ways the equivalence-checking fold in `genfut` (src/lib.rs lines
215-231) aborts: the two `assert_eq!` panics inside the `reduce` closure, and
the `.expect("at least one backend should be active")` on the empty reduction.
Each `assert_eq!` panic carries the two backend names that were being
compared. -/
inductive GenError where
  | arrayTypesDiffer (b1 b2 : String)
  | entryPointsDiffer (b1 b2 : String)
  | noBackend
deriving DecidableEq

/-- The panic message text of each abort, from the `assert_eq!` format strings
`"Array types differ between {} and {} backend"` and
`"Entry points differ between {} and {} backend"` and from the `.expect`
string (src/lib.rs lines 219-231). -/
def GenError.message : GenError → String
  | .arrayTypesDiffer b1 b2 =>
      "Array types differ between " ++ b1 ++ " and " ++ b2 ++ " backend"
  | .entryPointsDiffer b1 b2 =>
      "Entry points differ between " ++ b1 ++ " and " ++ b2 ++ " backend"
  | .noBackend => "at least one backend should be active"

/-- One step of the `reduce` closure (src/lib.rs lines 218-230).  In the Rust
source the accumulator is bound as `(backend, arr, ent)` and the next element
as `(prev_backend, prev_arr, prev_ent)`; the closure first asserts
`arr == prev_arr` (panicking with the array-types message naming `backend` and
`prev_backend`), then asserts `ent == prev_ent` (panicking with the
entry-points message), and on success returns the accumulator unchanged. -/
def checkStep (acc next : BackendModel) : Except GenError BackendModel :=
  if acc.arrayTypes = next.arrayTypes then
    if acc.entryPoints = next.entryPoints then
      .ok acc
    else
      .error (.entryPointsDiffer acc.backend next.backend)
  else
    .error (.arrayTypesDiffer acc.backend next.backend)

/-- The fold underlying `Iterator::reduce`: starting from the first element as
accumulator, apply `checkStep` to each remaining element in order, stopping at
the first panic. -/
def foldCheck (acc : BackendModel) : List BackendModel → Except GenError BackendModel
  | [] => .ok acc
  | m :: ms =>
      match checkStep acc m with
      | .ok acc2 => foldCheck acc2 ms
      | .error e => .error e

/-- `check_equivalent.into_iter().reduce(..).expect("at least one backend
should be active")` (src/lib.rs lines 216-231): `reduce` returns `None` on an
empty vector, which `.expect` turns into a panic; otherwise it folds
`checkStep` over the list starting from its first element. -/
def checkEquivalent : List BackendModel → Except GenError BackendModel
  | [] => .error .noBackend
  | m :: ms => foldCheck m ms

/-- An external process invocation as built by `std::process::Command`: a
program name and the accumulated argument list (`Command::arg` appends). -/
structure Cmd where
  program : String
  args : List String
deriving DecidableEq

/-- The first `futhark` invocation in `genfut` (src/lib.rs lines 120-122):
`Command::new("futhark")` followed by `.arg("pkg").arg("sync")`, run once for
package sync. -/
def futharkPkgSyncCmd : Cmd :=
  { program := "futhark", args := ["pkg", "sync"] }

/-- The second invocation (src/lib.rs lines 127-128): the code reuses the
same `futhark_cmd` value and appends one more argument with
`futhark_cmd.arg("--version")` before calling `.output()` again, so the
argument list is the package-sync arguments with `"--version"` appended. -/
def futharkVersionInvocation : Cmd :=
  { program := futharkPkgSyncCmd.program,
    args := futharkPkgSyncCmd.args ++ ["--version"] }

/-- Modelled from the spec: the version-capture invocation that §6 of the spec
describes ("a one-shot package-sync and version-capture invocation recorded as
a text artifact") and that the code's own `.expect("failed: futhark
--version")` message names: running the tool with the single argument
`--version`. -/
def specVersionInvocation : Cmd :=
  { program := "futhark", args := ["--version"] }

/-- The backend feature flags of the crate (`sequential_c`, `cuda`, `opencl`),
fixed at configuration time. -/
structure Features where
  sequential_c : Bool
  cuda : Bool
  opencl : Bool
deriving DecidableEq

/-- `active_backends` (src/lib.rs lines 138-145): the backend names whose
feature is enabled, in the fixed order sequential_c, cuda, opencl. -/
def activeBackends (f : Features) : List String :=
  (if f.sequential_c then ["sequential_c"] else [])
    ++ (if f.cuda then ["cuda"] else [])
    ++ (if f.opencl then ["opencl"] else [])

/-- The observable steps of a generation run, used to state ordering
properties of the pipeline. -/
inductive Event where
  | createOutDir
  | pkgSync
  | versionCapture
  | invokeCompiler (backend : String)
  | copyKernel (backend : String)
  | generateBindings (backend : String)
  | scanHeader (backend : String)
  | equivalenceCheck
  | writeOutputs
deriving DecidableEq

/-- Events of `gen_c` (src/genc.rs lines 6-75): one compiler invocation per
enabled feature, in three successive cfg blocks (sequential_c, then cuda,
then opencl), all inside the single call `gen_c(&futhark_file, &out_dir)`. -/
def genCEvents (f : Features) : List Event :=
  (if f.sequential_c then [Event.invokeCompiler "sequential_c"] else [])
    ++ (if f.cuda then [Event.invokeCompiler "cuda"] else [])
    ++ (if f.opencl then [Event.invokeCompiler "opencl"] else [])

/-- Events of one iteration of the `for &backend in active_backends` loop
(src/lib.rs lines 150-213): copy the kernel file, generate raw bindings, read
and scan the header (building that backend's model). -/
def backendLoopEvents (b : String) : List Event :=
  [Event.copyKernel b, Event.generateBindings b, Event.scanHeader b]

/-- The step sequence of `genfut` (src/lib.rs lines 106-301) in source order:
create the output directory; unless the `no_futhark` feature is set, run the
package sync and the version capture; call `gen_c` once (which invokes the
compiler for every enabled backend); then loop over the active backends
scanning each header; then run the equivalence check once; then write all
output files. -/
def genfutEvents (f : Features) (noFuthark : Bool) : List Event :=
  Event.createOutDir ::
    ((if noFuthark then [] else [Event.pkgSync, Event.versionCapture])
      ++ genCEvents f
      ++ ((activeBackends f).map backendLoopEvents).flatten
      ++ [Event.equivalenceCheck, Event.writeOutputs])

/-- The kind of a filesystem operation performed by the generator. -/
inductive FsKind where
  | createDir
  | copyFile
  | createFile
  | writeFile
deriving DecidableEq

/-- How the generator handles a failure of the operation: `exitOnError` is an
explicit `eprintln!` + `std::process::exit(1)`, `panicOnError` is `.expect`
(a panic, hence a failing exit status), and `ignored` means the returned
`Result` is discarded (the crate opts into this with
`#![allow(unused_must_use)]`, src/lib.rs line 31). -/
inductive FsHandling where
  | exitOnError
  | panicOnError
  | ignored
deriving DecidableEq

/-- One filesystem operation with its error handling. -/
structure FsOp where
  kind : FsKind
  target : String
  handling : FsHandling
deriving DecidableEq

/-- Filesystem operations of `gen_c` (src/genc.rs): one `create_dir_all` per
enabled backend, each followed by `eprintln!` + `exit(1)` on error. -/
def genCFsOps (f : Features) : List FsOp :=
  (if f.sequential_c then [⟨.createDir, "lib_sequential_c", .exitOnError⟩] else [])
    ++ (if f.cuda then [⟨.createDir, "lib_cuda", .exitOnError⟩] else [])
    ++ (if f.opencl then [⟨.createDir, "lib_opencl", .exitOnError⟩] else [])

/-- Filesystem operations of one backend-loop iteration (src/lib.rs lines
150-213, plus `generate_bindings` in src/genc.rs lines 76-94): the kernel-file
copy and the `src` directory creation exit(1) on error, and the raw-bindings
write uses `.expect("Couldn't write bindings!")`. -/
def backendLoopFsOps (b : String) : List FsOp :=
  [⟨.copyFile, "lib_" ++ b ++ "/a.fut", .exitOnError⟩,
   ⟨.createDir, "src", .exitOnError⟩,
   ⟨.writeFile, "src/bindings.rs", .panicOnError⟩]

/-- The filesystem operations of a `genfut` run, in source order (src/lib.rs
lines 106-301): the output-directory creation (exit(1) on error); unless the
`no_futhark` feature is set, the creation and the checked `write_all` of
`futhark-version.txt` (both `.expect`); the `gen_c` directory creations; the
per-backend loop operations; then, after the equivalence check, the `File::
create` of each output file (each `.expect("File creation failed!")`) followed
by `write!`/`writeln!` calls whose `Result` values are discarded —
`src/arrays.rs` and `src/lib.rs` each receive two such unchecked writes. -/
def genfutFsOps (f : Features) (noFuthark : Bool) : List FsOp :=
  ⟨.createDir, "out_dir", .exitOnError⟩ ::
    ((if noFuthark then []
      else [⟨.createFile, "futhark-version.txt", .panicOnError⟩,
            ⟨.writeFile, "futhark-version.txt", .panicOnError⟩])
      ++ genCFsOps f
      ++ ((activeBackends f).map backendLoopFsOps).flatten
      ++ [⟨.createFile, "build.rs", .panicOnError⟩,
          ⟨.writeFile, "build.rs", .ignored⟩,
          ⟨.createFile, "Cargo.toml", .panicOnError⟩,
          ⟨.writeFile, "Cargo.toml", .ignored⟩,
          ⟨.createFile, "src/context.rs", .panicOnError⟩,
          ⟨.writeFile, "src/context.rs", .ignored⟩,
          ⟨.createFile, "src/traits.rs", .panicOnError⟩,
          ⟨.writeFile, "src/traits.rs", .ignored⟩,
          ⟨.createFile, "src/arrays.rs", .panicOnError⟩,
          ⟨.writeFile, "src/arrays.rs", .ignored⟩,
          ⟨.writeFile, "src/arrays.rs", .ignored⟩,
          ⟨.createFile, "src/lib.rs", .panicOnError⟩,
          ⟨.writeFile, "src/lib.rs", .ignored⟩,
          ⟨.writeFile, "src/lib.rs", .ignored⟩])

/-- Modelled from the spec: the entry-point call wrapper emitted by
`gen_entry_points` lives in src/entry.rs, which is not among the provided
sources.  Per spec §4.4, the wrapper allocates storage for every
out-parameter, invokes the raw entry point obtaining an integer status code
and the (possibly partially written) out-parameter storage, and "on non-zero
status returns a descriptive error without exposing any out-value (even if
out-storage was partially written); on zero status it returns the typed
out-value(s)". -/
def entryPointWrapper (status : Int) (outStorage : List Int) :
    Except String (List Int) :=
  if status = 0 then
    .ok outStorage
  else
    .error ("Entry point returned non-zero status: " ++ toString status)

/-- Drop the literal `pfx` from the front of `cs`, or fail. -/
def dropPfx : List Char → List Char → Option (List Char)
  | [], cs => some cs
  | _ :: _, [] => none
  | p :: ps, c :: cs => if c = p then dropPfx ps cs else none

/-- The characters matched by the regex class `\s` (the ASCII forms; the
compiler-generated header text is ASCII). -/
def isWsChar (c : Char) : Bool :=
  c = ' ' || c = '\t' || c = '\n' || c = '\x0b' || c = '\x0c' || c = '\r'

/-- Split off the maximal leading run of `\d` characters. -/
def digitRun : List Char → List Char × List Char
  | [] => ([], [])
  | c :: cs =>
      if c.isDigit then
        let p := digitRun cs
        (c :: p.1, p.2)
      else ([], c :: cs)

/-- Split off the maximal leading run of `\s` characters. -/
def wsRun : List Char → List Char × List Char
  | [] => ([], [])
  | c :: cs =>
      if isWsChar c then
        let p := wsRun cs
        (c :: p.1, p.2)
      else ([], c :: cs)

/-- Match the tail `_\d+d\s*;` of `re_array_types` at the front of `cs`.
Taking the maximal `\d+` run is exact because a shorter run would have to be
followed by the literal `d`, yet it ends at a digit; likewise the maximal
`\s*` run, because `;` is not whitespace.  Returns the consumed part that
belongs to capture group 1 (`_` ++ digits ++ `d`) and the remainder after the
`;`. -/
def matchArraySuffix (cs : List Char) : Option (List Char × List Char) :=
  match cs with
  | [] => none
  | c0 :: cs1 =>
      if c0 = '_' then
        match digitRun cs1 with
        | ([], _) => none
        | (d :: ds, cs2) =>
            match cs2 with
            | [] => none
            | c1 :: cs3 =>
                if c1 = 'd' then
                  match wsRun cs3 with
                  | (_, []) => none
                  | (_, c2 :: cs5) =>
                      if c2 = ';' then some ('_' :: d :: ds ++ ['d'], cs5)
                      else none
                else none
      else none

/-- Greedy `.*` followed by `_\d+d\s*;`: prefer to extend the dot run (`.`
never matches a newline), falling back to the suffix at the current position
only when every longer extent fails — the regex crate's leftmost-first
(greedy, Perl-style) preference order.  Returns the consumed capture text and
the remainder after the whole match. -/
def matchDotStarArr : List Char → Option (List Char × List Char)
  | [] => none
  | c :: cs =>
      match (if c = '\n' then none
             else (matchDotStarArr cs).map fun p => (c :: p.1, p.2)) with
      | some r => some r
      | none => matchArraySuffix (c :: cs)

/-- `re_array_types = struct (futhark_.+_\d+d)\s*;` (src/lib.rs line 193)
matched at the start of `cs`: the literal `struct `, then capture group 1
beginning with the literal `futhark_` and one `.` character followed by the
greedy `.*` and the `_\d+d` tail, then `\s*;` outside the group.  On success
returns capture group 1 and the remainder after the whole match. -/
def matchArrayTypeAt (cs : List Char) : Option (List Char × List Char) :=
  match dropPfx "struct futhark_".toList cs with
  | none => none
  | some cs1 =>
      match cs1 with
      | [] => none
      | c :: cs2 =>
          if c = '\n' then none
          else
            (matchDotStarArr cs2).map fun p =>
              ("futhark_".toList ++ c :: p.1, p.2)

/-- `captures_iter` over `re_array_types` (src/lib.rs lines 194-197): scan
left to right, trying the regex at every position; on a match emit capture
group 1 and resume after the match (matches never overlap), otherwise advance
one character.  The fuel bounds the recursion; the text length suffices
because every step consumes at least one character. -/
def scanArrayTypesAux : Nat → List Char → List (List Char)
  | 0, _ => []
  | _ + 1, [] => []
  | fuel + 1, c :: cs =>
      match matchArrayTypeAt (c :: cs) with
      | some (cap, rest) => cap :: scanArrayTypesAux fuel rest
      | none => scanArrayTypesAux fuel cs

/-- The ordered array-type captures `genfut` collects from one header. -/
def scanArrayTypes (cs : List Char) : List (List Char) :=
  scanArrayTypesAux cs.length cs

/-- Modelled from the spec, §4.1 grammar (a): the full identifier of an
array-type forward declaration, written as a leading identifier part `base`,
the rank digits `ds`, and the trailing `d`. -/
def specArrayIdent (base ds : List Char) : List Char :=
  base ++ '_' :: (ds ++ ['d'])

/-- Modelled from the spec, §4.1 grammar (a): an array-type forward
declaration `struct <identifier>_<digits>d;`. -/
def specArrayDecl (base ds : List Char) : List Char :=
  "struct ".toList ++ specArrayIdent base ds ++ [';']

/-- A C identifier character. -/
def isIdentChar (c : Char) : Bool :=
  c.isAlphanum || c = '_'

/-- A header text consisting of the given array-type declarations with
`futhark_`-prefixed identifiers, one per line: for each pair `(mid, ds)` the
line `struct futhark_<mid>_<ds>d;` followed by a newline. -/
def arrayDeclLines : List (List Char × List Char) → List Char
  | [] => []
  | (mid, ds) :: rest =>
      specArrayDecl ("futhark_".toList ++ mid) ds ++ '\n' :: arrayDeclLines rest

/-- The characters matched by the class `[a-z0-9_]` of `re_entry_points`. -/
def isTypeChar (c : Char) : Bool :=
  c.isLower || c.isDigit || c = '_'

/-- The characters matched by the class `[a-z0-9]` of `re_entry_points`. -/
def isNameChar (c : Char) : Bool :=
  c.isLower || c.isDigit

/-- Greedy `X*` over the character class `p`, then the continuation `k`:
prefer the longest run, giving characters back one at a time when the rest of
the pattern fails — the regex crate's leftmost-first preference order.  All
continuations return the final remainder of a successful overall match. -/
def starCls (p : Char → Bool) : List Char → (List Char → Option (List Char)) → Option (List Char)
  | [], k => k []
  | c :: cs, k =>
      if p c then
        match starCls p cs k with
        | some r => some r
        | none => k (c :: cs)
      else k (c :: cs)

/-- Greedy `X+` over the class `p`: one mandatory character, then `X*`. -/
def plusCls (p : Char → Bool) (cs : List Char) (k : List Char → Option (List Char)) :
    Option (List Char) :=
  match cs with
  | [] => none
  | c :: cs' => if p c then starCls p cs' k else none

/-- One mandatory character of the class `p` (for the single `\s`). -/
def oneCls (p : Char → Bool) (cs : List Char) (k : List Char → Option (List Char)) :
    Option (List Char) :=
  match cs with
  | [] => none
  | c :: cs' => if p c then k cs' else none

/-- Greedy `X?` over the class `p`: prefer consuming the character. -/
def optCls (p : Char → Bool) (cs : List Char) (k : List Char → Option (List Char)) :
    Option (List Char) :=
  match cs with
  | [] => k []
  | c :: cs' =>
      if p c then
        match k cs' with
        | some r => some r
        | none => k (c :: cs')
      else k (c :: cs')

/-- A literal, then `k`. -/
def litThen (lit : List Char) (cs : List Char) (k : List Char → Option (List Char)) :
    Option (List Char) :=
  match dropPfx lit cs with
  | some r => k r
  | none => none

/-- The optional groups `(:?const\s*)?` and `(:?struct\s*)?` of
`re_entry_points` (note the source writes `(:?` — a colon-question typo for
the non-capturing `(?:` — so the group genuinely contains an optional literal
colon, then the keyword, then `\s*`); the whole group is optional and greedy:
try it, and skip it only if the rest fails with it. -/
def optGroup (lit : List Char) (cs : List Char) (k : List Char → Option (List Char)) :
    Option (List Char) :=
  match optCls (fun c => c = ':') cs fun cs1 =>
      litThen lit cs1 fun cs2 => starCls isWsChar cs2 k with
  | some r => some r
  | none => k cs

/-- One repetition of the parameter group of `re_entry_points`:
`\s*(:?const\s*)?(:?struct\s*)?[a-z0-9_]+\s\**[a-z0-9]+,?\s?`, every
quantifier greedy, backtracking in leftmost-first order. -/
def paramAtom (cs : List Char) (k : List Char → Option (List Char)) :
    Option (List Char) :=
  starCls isWsChar cs fun c1 =>
  optGroup "const".toList c1 fun c2 =>
  optGroup "struct".toList c2 fun c3 =>
  plusCls isTypeChar c3 fun c4 =>
  oneCls isWsChar c4 fun c5 =>
  starCls (fun c => c = '*') c5 fun c6 =>
  plusCls isNameChar c6 fun c7 =>
  optCls (fun c => c = ',') c7 fun c8 =>
  optCls isWsChar c8 k

/-- The `(...)+` repetition of the parameter group, then the closing literal
`);`: greedy, preferring one more repetition before closing.  The fuel bounds
the number of repetitions; `matchEntryAt` passes the remaining text length
plus one, which cannot be exhausted since every repetition consumes at least
three characters. -/
def matchParamsAux : Nat → List Char → Option (List Char)
  | 0, _ => none
  | fuel + 1, cs =>
      paramAtom cs fun rest =>
        match matchParamsAux fuel rest with
        | some r => some r
        | none => litThen ");".toList rest some

/-- Greedy `.*` (never across a newline) then the continuation `k`. -/
def dotStarThen : List Char → (List Char → Option (List Char)) → Option (List Char)
  | [], k => k []
  | c :: cs, k =>
      if c = '\n' then k (c :: cs)
      else
        match dotStarThen cs k with
        | some r => some r
        | none => k (c :: cs)

/-- The literal head of `re_entry_points`. -/
def entryPfx : List Char := "int futhark_entry_".toList

/-- The context-parameter literal of `re_entry_points`; its final character
is the comma that must follow `*ctx`. -/
def ctxLit : List Char := "(struct futhark_context *ctx,".toList

/-- The part of `re_entry_points` after the leading literal and the first
name character: the rest of the greedy `.+` name capture, then the context
literal, then at least one parameter group, then `);`.  Returns the remainder
after the whole match. -/
def matchEntryTail (cs2 : List Char) : Option (List Char) :=
  dotStarThen cs2 fun t =>
    litThen ctxLit t fun t2 => matchParamsAux (t2.length + 1) t2

/-- `re_entry_points = (?m)int futhark_entry_(.+)\(struct futhark_context
\*ctx,(\s*(:?const\s*)?(:?struct\s*)?[a-z0-9_]+\s\**[a-z0-9]+,?\s?)+\);`
(src/lib.rs line 201) matched at the start of `cs`.  `(?m)` only changes
`^`/`$`, which do not occur in the pattern.  The leading literal, then one
non-newline character starting the greedy `.+` name capture, then
`matchEntryTail`.  On success returns the whole matched text (capture 0,
which is what src/lib.rs line 205 collects) and the remainder after the
match. -/
def matchEntryAt (cs : List Char) : Option (List Char × List Char) :=
  match dropPfx entryPfx cs with
  | none => none
  | some cs1 =>
      match cs1 with
      | [] => none
      | c :: cs2 =>
          if c = '\n' then none
          else
            match matchEntryTail cs2 with
            | some rest => some (cs.take (cs.length - rest.length), rest)
            | none => none

/-- `captures_iter` over `re_entry_points` (src/lib.rs lines 203-206): scan
left to right, emitting the whole match of each successive non-overlapping
match. -/
def scanEntryPointsAux : Nat → List Char → List (List Char)
  | 0, _ => []
  | _ + 1, [] => []
  | fuel + 1, c :: cs =>
      match matchEntryAt (c :: cs) with
      | some (cap, rest) => cap :: scanEntryPointsAux fuel rest
      | none => scanEntryPointsAux fuel cs

/-- The ordered entry-point captures `genfut` collects from one header. -/
def scanEntryPoints (cs : List Char) : List (List Char) :=
  scanEntryPointsAux cs.length cs

/-- Modelled from the spec, §4.1 grammar (b): an entry-point prototype with
zero parameters beyond the leading context handle. -/
def specEntryNoParams (name : List Char) : List Char :=
  "int futhark_entry_".toList ++ name ++ "(struct futhark_context *ctx);".toList

/-- The model `genfut` builds for one backend from its header text
(src/lib.rs lines 189-212). -/
def buildModel (backend : String) (header : List Char) : BackendModel :=
  { backend := backend
    arrayTypes := scanArrayTypes header
    entryPoints := scanEntryPoints header }

/-- The per-backend scanning followed by the equivalence check (src/lib.rs
lines 147-231): each backend's header is scanned into a model and the models
are folded; nothing in between inspects whether the scanned entry-point list
is empty. -/
def genfutCheck (backends : List (String × List Char)) : Except GenError BackendModel :=
  checkEquivalent (backends.map fun b => buildModel b.1 b.2)

/-- A continuation is length-bounded: on success it returns a remainder no
longer than its input. -/
def Kle (k : List Char → Option (List Char)) : Prop :=
  ∀ t r, k t = some r → r.length ≤ t.length

end Genfut

namespace Genfut

/-- If the fold succeeds, the accumulator was returned unchanged and every
folded element agreed with it on both lists. -/
theorem foldCheck_ok {m r : BackendModel} {ms : List BackendModel}
    (h : foldCheck m ms = .ok r) :
    r = m ∧ ∀ x ∈ ms, x.arrayTypes = m.arrayTypes ∧ x.entryPoints = m.entryPoints := by
  induction ms generalizing m with
  | nil =>
      simp only [foldCheck, Except.ok.injEq] at h
      exact ⟨h.symm, by simp⟩
  | cons x xs ih =>
      simp only [foldCheck] at h
      rcases hstep : checkStep m x with e | acc2
      · rw [hstep] at h; cases h
      · rw [hstep] at h
        have hacc : acc2 = m ∧ x.arrayTypes = m.arrayTypes ∧ x.entryPoints = m.entryPoints := by
          unfold checkStep at hstep
          by_cases h1 : m.arrayTypes = x.arrayTypes
          · by_cases h2 : m.entryPoints = x.entryPoints
            · simp only [h1, h2, if_pos rfl, if_true] at hstep
              refine ⟨?_, h1.symm, h2.symm⟩
              cases hstep; rfl
            · simp [h1, h2] at hstep
          · simp [h1] at hstep
        rcases hacc with ⟨rfl, hx1, hx2⟩
        obtain ⟨hr, hall⟩ := ih h
        refine ⟨hr, ?_⟩
        intro y hy
        rcases List.mem_cons.mp hy with rfl | hy'
        · exact ⟨hx1, hx2⟩
        · exact hall y hy'

/-- If the fold aborts, the error is one of the two `assert_eq!` panics, it
names the accumulator and some folded element, and those two models genuinely
disagree on the named list. -/
theorem foldCheck_error {m : BackendModel} {ms : List BackendModel} {e : GenError}
    (h : foldCheck m ms = .error e) :
    ∃ x ∈ ms,
      (e = .arrayTypesDiffer m.backend x.backend ∧ m.arrayTypes ≠ x.arrayTypes) ∨
      (e = .entryPointsDiffer m.backend x.backend ∧ m.entryPoints ≠ x.entryPoints) := by
  induction ms generalizing m with
  | nil => simp [foldCheck] at h
  | cons x xs ih =>
      simp only [foldCheck] at h
      rcases hstep : checkStep m x with e' | acc2
      · rw [hstep] at h
        cases h
        unfold checkStep at hstep
        by_cases h1 : m.arrayTypes = x.arrayTypes
        · by_cases h2 : m.entryPoints = x.entryPoints
          · rw [if_pos h1, if_pos h2] at hstep; cases hstep
          · rw [if_pos h1, if_neg h2] at hstep
            injection hstep with he
            exact ⟨x, List.mem_cons_self x xs, Or.inr ⟨he.symm, h2⟩⟩
        · rw [if_neg h1] at hstep
          injection hstep with he
          exact ⟨x, List.mem_cons_self x xs, Or.inl ⟨he.symm, h1⟩⟩
      · rw [hstep] at h
        have hacc : acc2 = m := by
          unfold checkStep at hstep
          by_cases h1 : m.arrayTypes = x.arrayTypes
          · by_cases h2 : m.entryPoints = x.entryPoints
            · simp only [h1, h2, if_pos rfl, if_true, Except.ok.injEq] at hstep
              exact hstep.symm
            · simp [h1, h2] at hstep
          · simp [h1] at hstep
        subst hacc
        obtain ⟨y, hy, hcase⟩ := ih h
        exact ⟨y, List.mem_cons_of_mem x hy, hcase⟩

theorem dropPfx_append (p x : List Char) : dropPfx p (p ++ x) = some x := by
  induction p with
  | nil => rfl
  | cons c cs ih => simp [dropPfx, ih]

theorem digitRun_all_digits (ds : List Char) (c : Char) (rest : List Char)
    (hds : ∀ d ∈ ds, d.isDigit) (hc : ¬ c.isDigit) :
    digitRun (ds ++ c :: rest) = (ds, c :: rest) := by
  induction ds with
  | nil => simp [digitRun, hc]
  | cons d ds' ih =>
      have hd : d.isDigit := hds d (List.mem_cons_self d ds')
      have ih' := ih fun x hx => hds x (List.mem_cons_of_mem d hx)
      simp [digitRun, hd, ih']

theorem matchArraySuffix_decl (ds rest : List Char)
    (hds : ds ≠ []) (hdig : ∀ d ∈ ds, d.isDigit) :
    matchArraySuffix ('_' :: (ds ++ 'd' :: ';' :: rest))
      = some ('_' :: ds ++ ['d'], rest) := by
  cases ds with
  | nil => cases hds rfl
  | cons d ds' =>
      have hrun := digitRun_all_digits (d :: ds') 'd' (';' :: rest) hdig (by decide)
      rw [List.cons_append] at hrun
      have hws : wsRun (';' :: rest) = ([], ';' :: rest) := by
        simp [wsRun, isWsChar]
      simp [matchArraySuffix, hrun, hws]

theorem matchArraySuffix_not_underscore (c : Char) (cs : List Char)
    (hc : c ≠ '_') : matchArraySuffix (c :: cs) = none := by
  simp [matchArraySuffix, hc]

theorem matchDotStarArr_none (xs rest : List Char)
    (hxs : ∀ c ∈ xs, c ≠ '_')
    (hrest : rest = [] ∨ ∃ t, rest = '\n' :: t) :
    matchDotStarArr (xs ++ rest) = none := by
  induction xs with
  | nil =>
      rcases hrest with rfl | ⟨t, rfl⟩
      · rfl
      · simp [matchDotStarArr, matchArraySuffix]
  | cons x xs' ih =>
      have hx : x ≠ '_' := hxs x (List.mem_cons_self x xs')
      have ih' := ih fun c hc => hxs c (List.mem_cons_of_mem x hc)
      simp [matchDotStarArr, ih', matchArraySuffix_not_underscore x _ hx, ite_self]

theorem matchDotStarArr_decl (mid ds rest : List Char)
    (hmid : ∀ c ∈ mid, isIdentChar c)
    (hds : ds ≠ []) (hdig : ∀ d ∈ ds, d.isDigit)
    (hrest : rest = [] ∨ ∃ t, rest = '\n' :: t) :
    matchDotStarArr (mid ++ '_' :: (ds ++ 'd' :: ';' :: rest))
      = some (mid ++ '_' :: (ds ++ ['d']), rest) := by
  induction mid with
  | nil =>
      have hall : ∀ c ∈ ds ++ ['d', ';'], c ≠ '_' := by
        intro c hc
        rcases List.mem_append.mp hc with hm | hm
        · intro heq; subst heq; exact absurd (hdig '_' hm) (by decide)
        · intro heq; subst heq; exact absurd hm (by decide)
      have hnone : matchDotStarArr (ds ++ 'd' :: ';' :: rest) = none := by
        have := matchDotStarArr_none (ds ++ ['d', ';']) rest hall hrest
        simpa [List.append_assoc] using this
      simp [matchDotStarArr, hnone, matchArraySuffix_decl ds rest hds hdig]
  | cons m mid' ih =>
      have hm : isIdentChar m := hmid m (List.mem_cons_self m mid')
      have hmn : m ≠ '\n' := by
        intro heq; subst heq; exact absurd hm (by decide)
      have ih' := ih fun c hc => hmid c (List.mem_cons_of_mem m hc)
      simp [matchDotStarArr, hmn, ih']

theorem matchArrayTypeAt_decl (mid ds rest : List Char)
    (hmid : mid ≠ []) (hmidc : ∀ c ∈ mid, isIdentChar c)
    (hds : ds ≠ []) (hdig : ∀ d ∈ ds, d.isDigit)
    (hrest : rest = [] ∨ ∃ t, rest = '\n' :: t) :
    matchArrayTypeAt (specArrayDecl ("futhark_".toList ++ mid) ds ++ rest)
      = some (specArrayIdent ("futhark_".toList ++ mid) ds, rest) := by
  cases mid with
  | nil => cases hmid rfl
  | cons m mid' =>
      have hlit : "struct ".toList ++ "futhark_".toList = "struct futhark_".toList := rfl
      have hshape : specArrayDecl ("futhark_".toList ++ (m :: mid')) ds ++ rest
          = "struct futhark_".toList
              ++ (m :: (mid' ++ '_' :: (ds ++ 'd' :: ';' :: rest))) := by
        simp only [specArrayDecl, specArrayIdent, List.append_assoc, List.cons_append,
          List.nil_append]
        rw [← List.append_assoc, hlit]
      rw [hshape]
      have hdrop := dropPfx_append "struct futhark_".toList
        (m :: (mid' ++ '_' :: (ds ++ 'd' :: ';' :: rest)))
      have hdot := matchDotStarArr_decl mid' ds rest
        (fun c hc => hmidc c (List.mem_cons_of_mem m hc)) hds hdig hrest
      have hmn : m ≠ '\n' := by
        have hm := hmidc m (List.mem_cons_self m mid')
        intro heq; subst heq; exact absurd hm (by decide)
      simp [matchArrayTypeAt, dropPfx, hmn, hdot, specArrayIdent, List.append_assoc]

theorem scanArrayTypesAux_match (fuel : Nat) (cs cap rest : List Char)
    (hne : cs ≠ []) (h : matchArrayTypeAt cs = some (cap, rest)) :
    scanArrayTypesAux (fuel + 1) cs = cap :: scanArrayTypesAux fuel rest := by
  cases cs with
  | nil => cases hne rfl
  | cons c cs' => simp [scanArrayTypesAux, h]

theorem scanArrayTypesAux_newline (fuel : Nat) (t : List Char) :
    scanArrayTypesAux (fuel + 1) ('\n' :: t) = scanArrayTypesAux fuel t := by
  have h : matchArrayTypeAt ('\n' :: t) = none := by
    simp [matchArrayTypeAt, dropPfx]
  simp [scanArrayTypesAux, h]

theorem scanArrayTypesAux_decl_lines (ps : List (List Char × List Char))
    (h : ∀ p ∈ ps, p.1 ≠ [] ∧ (∀ c ∈ p.1, isIdentChar c)
          ∧ p.2 ≠ [] ∧ (∀ d ∈ p.2, d.isDigit)) :
    ∀ fuel, (arrayDeclLines ps).length ≤ fuel →
      scanArrayTypesAux fuel (arrayDeclLines ps)
        = ps.map fun p => specArrayIdent ("futhark_".toList ++ p.1) p.2 := by
  induction ps with
  | nil =>
      intro fuel _
      cases fuel <;> rfl
  | cons p ps' ih =>
      obtain ⟨mid, ds⟩ := p
      obtain ⟨hmid, hmidc, hds, hdig⟩ := h (mid, ds) (List.mem_cons_self _ _)
      have ih' := ih fun q hq => h q (List.mem_cons_of_mem _ hq)
      intro fuel hfuel
      have hlen : (arrayDeclLines ((mid, ds) :: ps')).length
          = (specArrayDecl ("futhark_".toList ++ mid) ds).length + 1
            + (arrayDeclLines ps').length := by
        simp [arrayDeclLines]
        omega
      have hdecl_pos : 0 < (specArrayDecl ("futhark_".toList ++ mid) ds).length := by
        simp [specArrayDecl]
      obtain ⟨f, rfl⟩ : ∃ f, fuel = f + 1 := by
        cases fuel with
        | zero => exfalso; rw [hlen] at hfuel; omega
        | succ f => exact ⟨f, rfl⟩
      have hmatch := matchArrayTypeAt_decl mid ds ('\n' :: arrayDeclLines ps')
        hmid hmidc hds hdig (Or.inr ⟨_, rfl⟩)
      have hne : arrayDeclLines ((mid, ds) :: ps') ≠ [] :=
        List.length_pos.mp (by rw [hlen]; omega)
      have hstep := scanArrayTypesAux_match f (arrayDeclLines ((mid, ds) :: ps'))
        (specArrayIdent ("futhark_".toList ++ mid) ds) ('\n' :: arrayDeclLines ps')
        hne (by rw [show arrayDeclLines ((mid, ds) :: ps')
              = specArrayDecl ("futhark_".toList ++ mid) ds
                ++ '\n' :: arrayDeclLines ps' from rfl]; exact hmatch)
      rw [hstep]
      obtain ⟨f', rfl⟩ : ∃ f', f = f' + 1 := by
        rw [hlen] at hfuel
        cases f with
        | zero => exfalso; omega
        | succ f' => exact ⟨f', rfl⟩
      rw [scanArrayTypesAux_newline]
      rw [ih' f' (by rw [hlen] at hfuel; omega)]
      simp

theorem kle_starCls (p : Char → Bool) (k : List Char → Option (List Char))
    (hk : Kle k) : Kle (fun cs => starCls p cs k) := by
  intro t
  induction t with
  | nil =>
      intro r h
      simp only [starCls] at h
      exact hk [] r h
  | cons c cs ih =>
      intro r h
      simp only [starCls] at h
      by_cases hp : p c
      · rw [if_pos hp] at h
        rcases hrec : starCls p cs k with _ | r'
        · rw [hrec] at h
          exact hk _ _ h
        · rw [hrec] at h
          injection h with he
          subst he
          have := ih _ hrec
          simp only [List.length_cons]
          omega
      · rw [if_neg hp] at h
        exact hk _ _ h

theorem kle_plusCls (p : Char → Bool) (k : List Char → Option (List Char))
    (hk : Kle k) : Kle (fun cs => plusCls p cs k) := by
  intro t r h
  cases t with
  | nil => simp [plusCls] at h
  | cons c cs =>
      simp only [plusCls] at h
      by_cases hp : p c
      · rw [if_pos hp] at h
        have := kle_starCls p k hk cs r h
        simp only [List.length_cons]
        omega
      · rw [if_neg hp] at h; cases h

theorem kle_oneCls (p : Char → Bool) (k : List Char → Option (List Char))
    (hk : Kle k) : Kle (fun cs => oneCls p cs k) := by
  intro t r h
  cases t with
  | nil => simp [oneCls] at h
  | cons c cs =>
      simp only [oneCls] at h
      by_cases hp : p c
      · rw [if_pos hp] at h
        have := hk cs r h
        simp only [List.length_cons]
        omega
      · rw [if_neg hp] at h; cases h

theorem kle_optCls (p : Char → Bool) (k : List Char → Option (List Char))
    (hk : Kle k) : Kle (fun cs => optCls p cs k) := by
  intro t r h
  cases t with
  | nil =>
      simp only [optCls] at h
      exact hk [] r h
  | cons c cs =>
      simp only [optCls] at h
      by_cases hp : p c
      · rw [if_pos hp] at h
        rcases hrec : k cs with _ | r'
        · rw [hrec] at h
          exact hk _ _ h
        · rw [hrec] at h
          injection h with he
          subst he
          have := hk cs _ hrec
          simp only [List.length_cons]
          omega
      · rw [if_neg hp] at h
        exact hk _ _ h

theorem dropPfx_sound (p : List Char) : ∀ cs r : List Char,
    dropPfx p cs = some r → cs = p ++ r := by
  induction p with
  | nil =>
      intro cs r h
      simpa [dropPfx] using h
  | cons x p' ih =>
      intro cs r h
      cases cs with
      | nil => simp [dropPfx] at h
      | cons c cs' =>
          simp only [dropPfx] at h
          by_cases hc : c = x
          · rw [if_pos hc] at h
            have := ih cs' r h
            subst hc
            rw [List.cons_append, ← this]
          · rw [if_neg hc] at h; cases h

theorem kle_litThen (lit : List Char) (k : List Char → Option (List Char))
    (hk : Kle k) : Kle (fun cs => litThen lit cs k) := by
  intro t r h
  simp only [litThen] at h
  rcases hd : dropPfx lit t with _ | t'
  · rw [hd] at h; cases h
  · rw [hd] at h
    have hts := dropPfx_sound lit t t' hd
    have := hk t' r h
    subst hts
    simp only [List.length_append]
    omega

theorem kle_optGroup (lit : List Char) (k : List Char → Option (List Char))
    (hk : Kle k) : Kle (fun cs => optGroup lit cs k) := by
  intro t r h
  simp only [optGroup] at h
  rcases hrec : optCls (fun c => c = ':') t
      (fun cs1 => litThen lit cs1 fun cs2 => starCls isWsChar cs2 k) with _ | r'
  · rw [hrec] at h
    exact hk _ _ h
  · rw [hrec] at h
    injection h with he
    subst he
    exact kle_optCls (fun c => c = ':') _
      (kle_litThen lit _ (kle_starCls isWsChar k hk)) t _ hrec

theorem kle_paramAtom (k : List Char → Option (List Char)) (hk : Kle k) :
    Kle (fun cs => paramAtom cs k) := by
  have k8 : Kle (fun c8 => optCls isWsChar c8 k) := kle_optCls isWsChar k hk
  have k7 : Kle (fun c7 => optCls (fun c => c = ',') c7 fun c8 =>
      optCls isWsChar c8 k) := kle_optCls _ _ k8
  have k6 : Kle (fun c6 => plusCls isNameChar c6 fun c7 =>
      optCls (fun c => c = ',') c7 fun c8 => optCls isWsChar c8 k) :=
    kle_plusCls _ _ k7
  have k5 : Kle (fun c5 => starCls (fun c => c = '*') c5 fun c6 =>
      plusCls isNameChar c6 fun c7 =>
      optCls (fun c => c = ',') c7 fun c8 => optCls isWsChar c8 k) :=
    kle_starCls _ _ k6
  have k4 : Kle (fun c4 => oneCls isWsChar c4 fun c5 =>
      starCls (fun c => c = '*') c5 fun c6 =>
      plusCls isNameChar c6 fun c7 =>
      optCls (fun c => c = ',') c7 fun c8 => optCls isWsChar c8 k) :=
    kle_oneCls _ _ k5
  have k3 : Kle (fun c3 => plusCls isTypeChar c3 fun c4 =>
      oneCls isWsChar c4 fun c5 =>
      starCls (fun c => c = '*') c5 fun c6 =>
      plusCls isNameChar c6 fun c7 =>
      optCls (fun c => c = ',') c7 fun c8 => optCls isWsChar c8 k) :=
    kle_plusCls _ _ k4
  have k2 : Kle (fun c2 => optGroup "struct".toList c2 fun c3 =>
      plusCls isTypeChar c3 fun c4 =>
      oneCls isWsChar c4 fun c5 =>
      starCls (fun c => c = '*') c5 fun c6 =>
      plusCls isNameChar c6 fun c7 =>
      optCls (fun c => c = ',') c7 fun c8 => optCls isWsChar c8 k) :=
    kle_optGroup _ _ k3
  have k1 : Kle (fun c1 => optGroup "const".toList c1 fun c2 =>
      optGroup "struct".toList c2 fun c3 =>
      plusCls isTypeChar c3 fun c4 =>
      oneCls isWsChar c4 fun c5 =>
      starCls (fun c => c = '*') c5 fun c6 =>
      plusCls isNameChar c6 fun c7 =>
      optCls (fun c => c = ',') c7 fun c8 => optCls isWsChar c8 k) :=
    kle_optGroup _ _ k2
  intro t r h
  simp only [paramAtom] at h
  exact kle_starCls isWsChar _ k1 t r h

theorem matchParamsAux_le : ∀ (fuel : Nat) (cs r : List Char),
    matchParamsAux fuel cs = some r → r.length ≤ cs.length := by
  intro fuel
  induction fuel with
  | zero => intro cs r h; simp [matchParamsAux] at h
  | succ f ih =>
      intro cs r h
      simp only [matchParamsAux] at h
      refine kle_paramAtom _ ?_ cs r h
      intro t r' h'
      have h'' : (match matchParamsAux f t with
          | some r => some r
          | none => litThen ");".toList t some) = some r' := h'
      rcases hrec : matchParamsAux f t with _ | r''
      · rw [hrec] at h''
        refine kle_litThen ");".toList some ?_ t r' h''
        intro t2 r2 h2
        injection h2 with he
        subst he
        exact le_refl _
      · rw [hrec] at h''
        injection h'' with he
        subst he
        exact ih t _ hrec

theorem dotStarThen_decomp (cs : List Char) (k : List Char → Option (List Char))
    (r : List Char) (h : dotStarThen cs k = some r) :
    ∃ a t, cs = a ++ t ∧ k t = some r := by
  induction cs with
  | nil =>
      simp only [dotStarThen] at h
      exact ⟨[], [], rfl, h⟩
  | cons c cs' ih =>
      simp only [dotStarThen] at h
      by_cases hc : c = '\n'
      · rw [if_pos hc] at h
        exact ⟨[], c :: cs', rfl, h⟩
      · rw [if_neg hc] at h
        rcases hrec : dotStarThen cs' k with _ | r'
        · rw [hrec] at h
          exact ⟨[], c :: cs', rfl, h⟩
        · rw [hrec] at h
          injection h with he
          subst he
          obtain ⟨a, t, hat, hkt⟩ := ih hrec
          exact ⟨c :: a, t, by rw [hat]; rfl, hkt⟩

theorem litThen_decomp (lit cs : List Char) (k : List Char → Option (List Char))
    (r : List Char) (h : litThen lit cs k = some r) :
    ∃ t, cs = lit ++ t ∧ k t = some r := by
  simp only [litThen] at h
  rcases hd : dropPfx lit cs with _ | t
  · rw [hd] at h; cases h
  · rw [hd] at h
    exact ⟨t, dropPfx_sound lit cs t hd, h⟩

theorem matchEntryAt_comma (cs cap rest : List Char)
    (h : matchEntryAt cs = some (cap, rest)) : ',' ∈ cap := by
  rcases hd : dropPfx entryPfx cs with _ | cs1
  · simp [matchEntryAt, hd] at h
  · cases cs1 with
    | nil => simp [matchEntryAt, hd] at h
    | cons c cs2 =>
        by_cases hc : c = '\n'
        · simp [matchEntryAt, hd, hc] at h
        · rcases hds : matchEntryTail cs2 with _ | rrest
          · simp [matchEntryAt, hd, hds, hc] at h
          · simp only [matchEntryAt, hd, hds, if_neg hc, Option.some.injEq,
              Prod.mk.injEq] at h
            obtain ⟨hcap, hrest⟩ := h
            subst hcap
            have hds' : dotStarThen cs2 (fun t => litThen ctxLit t fun t2 =>
                matchParamsAux (t2.length + 1) t2) = some rrest := hds
            obtain ⟨a, t, hat, hkt⟩ := dotStarThen_decomp cs2 _ rrest hds'
            obtain ⟨t2, ht2, hp⟩ := litThen_decomp ctxLit t _ rrest hkt
            have hrle : rrest.length ≤ t2.length := matchParamsAux_le _ t2 rrest hp
            have hcs : cs = (entryPfx ++ c :: a ++ ctxLit) ++ t2 := by
              have h1 := dropPfx_sound entryPfx cs (c :: cs2) hd
              rw [h1, hat, ht2]
              simp [List.append_assoc]
            rw [hcs, List.take_append_eq_append_take]
            have hA : (entryPfx ++ c :: a ++ ctxLit).take
                (((entryPfx ++ c :: a ++ ctxLit) ++ t2).length - rrest.length)
                = entryPfx ++ c :: a ++ ctxLit := by
              apply List.take_of_length_le
              simp only [List.length_append, List.length_cons]
              omega
            rw [hA]
            refine List.mem_append.mpr (Or.inl ?_)
            exact List.mem_append.mpr (Or.inr (by decide))

theorem mem_scanEntryPointsAux (fuel : Nat) : ∀ (cs cap : List Char),
    cap ∈ scanEntryPointsAux fuel cs →
    ∃ cs' rest, matchEntryAt cs' = some (cap, rest) := by
  induction fuel with
  | zero => intro cs cap h; simp [scanEntryPointsAux] at h
  | succ f ih =>
      intro cs cap h
      cases cs with
      | nil => simp [scanEntryPointsAux] at h
      | cons c cs' =>
          simp only [scanEntryPointsAux] at h
          rcases hm : matchEntryAt (c :: cs') with _ | ⟨cap', rest'⟩
          · rw [hm] at h
            exact ih _ _ h
          · simp only [hm] at h
            rcases List.mem_cons.mp h with rfl | h'
            · exact ⟨c :: cs', rest', hm⟩
            · exact ih _ _ h'

end Genfut

/-- C1: for every sequence of per-backend API models, if two of the models
differ in their array-type lists or in their entry-point lists, the
equivalence check aborts with an error that names two backends from the
sequence whose models genuinely disagree, and the error states which of the
two lists diverged (array types via `arrayTypesDiffer`, entry points via
`entryPointsDiffer`). -/
theorem Genfut.checkEquivalent_detects_divergence
    (ms : List Genfut.BackendModel) (m1 m2 : Genfut.BackendModel)
    (h1 : m1 ∈ ms) (h2 : m2 ∈ ms)
    (hdiff : m1.arrayTypes ≠ m2.arrayTypes ∨ m1.entryPoints ≠ m2.entryPoints) :
    ∃ e, Genfut.checkEquivalent ms = .error e ∧
      ∃ n1 ∈ ms, ∃ n2 ∈ ms,
        (e = .arrayTypesDiffer n1.backend n2.backend ∧ n1.arrayTypes ≠ n2.arrayTypes) ∨
        (e = .entryPointsDiffer n1.backend n2.backend ∧ n1.entryPoints ≠ n2.entryPoints) := by
  cases ms with
  | nil => cases h1
  | cons m0 rest =>
      rcases hres : Genfut.foldCheck m0 rest with e | r
      · refine ⟨e, by simp [Genfut.checkEquivalent, hres], ?_⟩
        obtain ⟨x, hx, hcase⟩ := Genfut.foldCheck_error hres
        exact ⟨m0, List.mem_cons_self m0 rest, x, List.mem_cons_of_mem m0 hx, hcase⟩
      · exfalso
        obtain ⟨hr, hall⟩ := Genfut.foldCheck_ok hres
        have agree : ∀ x ∈ m0 :: rest,
            x.arrayTypes = m0.arrayTypes ∧ x.entryPoints = m0.entryPoints := by
          intro x hx
          rcases List.mem_cons.mp hx with rfl | hx'
          · exact ⟨rfl, rfl⟩
          · exact hall x hx'
        obtain ⟨a1, e1⟩ := agree m1 h1
        obtain ⟨a2, e2⟩ := agree m2 h2
        rcases hdiff with hd | hd
        · exact hd (a1.trans a2.symm)
        · exact hd (e1.trans e2.symm)

/-- C1 witness: a concrete two-backend sequence whose models differ in one
array-type entry is rejected by the equivalence check. -/
theorem Genfut.checkEquivalent_detects_divergence_witness :
    ∃ e, Genfut.checkEquivalent
        [⟨"sequential_c", ["futhark_i32_1d".toList], []⟩,
         ⟨"cuda", ["futhark_i32_2d".toList], []⟩] = .error e ∧
      ∃ n1 ∈ ([⟨"sequential_c", ["futhark_i32_1d".toList], []⟩,
               ⟨"cuda", ["futhark_i32_2d".toList], []⟩] : List Genfut.BackendModel),
      ∃ n2 ∈ ([⟨"sequential_c", ["futhark_i32_1d".toList], []⟩,
               ⟨"cuda", ["futhark_i32_2d".toList], []⟩] : List Genfut.BackendModel),
        (e = .arrayTypesDiffer n1.backend n2.backend ∧ n1.arrayTypes ≠ n2.arrayTypes) ∨
        (e = .entryPointsDiffer n1.backend n2.backend ∧ n1.entryPoints ≠ n2.entryPoints) :=
  Genfut.checkEquivalent_detects_divergence
    [⟨"sequential_c", ["futhark_i32_1d".toList], []⟩,
     ⟨"cuda", ["futhark_i32_2d".toList], []⟩]
    ⟨"sequential_c", ["futhark_i32_1d".toList], []⟩
    ⟨"cuda", ["futhark_i32_2d".toList], []⟩
    (by simp) (by simp) (by decide)

/-- C2: if every model in a non-empty sequence has the same array-type list
and the same entry-point list as the first one, the equivalence check succeeds
and the canonical model it returns is the first backend's model. -/
theorem Genfut.checkEquivalent_identical_ok
    (m : Genfut.BackendModel) (ms : List Genfut.BackendModel)
    (hall : ∀ x ∈ ms, x.arrayTypes = m.arrayTypes ∧ x.entryPoints = m.entryPoints) :
    Genfut.checkEquivalent (m :: ms) = .ok m := by
  show Genfut.foldCheck m ms = .ok m
  induction ms with
  | nil => rfl
  | cons x xs ih =>
      obtain ⟨h1, h2⟩ := hall x (List.mem_cons_self x xs)
      have hstep : Genfut.checkStep m x = .ok m := by
        unfold Genfut.checkStep
        simp [h1, h2]
      simp only [Genfut.foldCheck, hstep]
      exact ih fun y hy => hall y (List.mem_cons_of_mem x hy)

/-- C2 witness: two concrete backends with identical lists pass the check and
the first backend's model is returned as canonical. -/
theorem Genfut.checkEquivalent_identical_ok_witness :
    Genfut.checkEquivalent
      [⟨"sequential_c", ["futhark_i32_1d".toList], ["int futhark_entry_main".toList]⟩,
       ⟨"cuda", ["futhark_i32_1d".toList], ["int futhark_entry_main".toList]⟩]
      = .ok ⟨"sequential_c", ["futhark_i32_1d".toList], ["int futhark_entry_main".toList]⟩ :=
  Genfut.checkEquivalent_identical_ok
    ⟨"sequential_c", ["futhark_i32_1d".toList], ["int futhark_entry_main".toList]⟩
    [⟨"cuda", ["futhark_i32_1d".toList], ["int futhark_entry_main".toList]⟩]
    (by decide)

/-- C10: on an empty backend sequence the equivalence check aborts via the
`.expect` panic whose message is exactly "at least one backend should be
active", and no canonical model is ever produced from an empty sequence. -/
theorem Genfut.checkEquivalent_empty_aborts :
    Genfut.checkEquivalent [] = .error .noBackend ∧
    Genfut.GenError.noBackend.message = "at least one backend should be active" ∧
    ∀ m, Genfut.checkEquivalent [] ≠ .ok m := by
  refine ⟨rfl, rfl, ?_⟩
  intro m h
  cases h

/-- C8: the invocation whose standard output is recorded in
`futhark-version.txt` is `futhark pkg sync --version`, not the version-capture
invocation `futhark --version` that the spec and the code's own expect message
describe, because the `Command` value is reused and `--version` is appended to
the already-present `pkg sync` arguments. -/
theorem Genfut.version_invocation_reuses_sync_args :
    Genfut.futharkVersionInvocation.args = ["pkg", "sync", "--version"] ∧
    Genfut.futharkVersionInvocation ≠ Genfut.specVersionInvocation := by
  constructor
  · rfl
  · intro h
    have : Genfut.futharkVersionInvocation.args = Genfut.specVersionInvocation.args := by
      rw [h]
    simp [Genfut.futharkVersionInvocation, Genfut.futharkPkgSyncCmd,
      Genfut.specVersionInvocation] at this

/-- C6 counterexample: with the sequential_c and cuda backends active, the
cuda compiler invocation happens before the sequential_c header is ever
scanned, so a backend is not fully processed before the next backend's
compiler invocation begins. -/
theorem Genfut.genfut_interleaves_invocations :
    (Genfut.genfutEvents ⟨true, true, false⟩ false).indexOf
        (Genfut.Event.invokeCompiler "cuda")
      < (Genfut.genfutEvents ⟨true, true, false⟩ false).indexOf
        (Genfut.Event.scanHeader "sequential_c") := by
  decide

/-- C6 amended: the run is strictly sequential but two-phase: first all
backend compiler invocations (in the fixed backend order, inside the single
`gen_c` call), then the per-backend copy/bindings/scan steps in the same
order, and only after all of them the single equivalence check and the output
writes; an equivalence failure therefore occurs only after every active
backend has been invoked and scanned. -/
theorem Genfut.genfut_two_phase (f : Genfut.Features) (noFuthark : Bool) :
    Genfut.genfutEvents f noFuthark =
      Genfut.Event.createOutDir ::
        ((if noFuthark then []
          else [Genfut.Event.pkgSync, Genfut.Event.versionCapture])
          ++ (Genfut.activeBackends f).map Genfut.Event.invokeCompiler
          ++ ((Genfut.activeBackends f).map Genfut.backendLoopEvents).flatten
          ++ [Genfut.Event.equivalenceCheck, Genfut.Event.writeOutputs]) := by
  rcases f with ⟨s, c, o⟩
  cases s <;> cases c <;> cases o <;> cases noFuthark <;> rfl

/-- C7 counterexample: the `write!` that writes the generated `build.rs`
content discards its `Result` — a failure of that file write is silently
ignored and the run does not exit with a failure status. -/
theorem Genfut.build_rs_write_errors_ignored :
    (⟨.writeFile, "build.rs", .ignored⟩ : Genfut.FsOp)
      ∈ Genfut.genfutFsOps ⟨true, false, false⟩ false := by
  decide

/-- C7 amended: every directory creation and the kernel-file copy exit with
status 1 on failure, every `File::create` panics on failure, but the only
operations whose errors are ignored are the `write!`/`writeln!` calls that
write generated file contents (the version-file and raw-bindings writes are
checked). -/
theorem Genfut.genfutFsOps_error_handling
    (f : Genfut.Features) (noFuthark : Bool) :
    ∀ op ∈ Genfut.genfutFsOps f noFuthark,
      (op.kind = .createDir → op.handling = .exitOnError) ∧
      (op.kind = .copyFile → op.handling = .exitOnError) ∧
      (op.kind = .createFile → op.handling = .panicOnError) ∧
      (op.handling = .ignored → op.kind = .writeFile) := by
  rcases f with ⟨s, c, o⟩
  cases s <;> cases c <;> cases o <;> cases noFuthark <;> decide

/-- C7 amended witness: the directory-creation operation for the output
directory, in a run with every backend enabled, exits on error. -/
theorem Genfut.genfutFsOps_error_handling_witness :
    ((⟨.createDir, "out_dir", .exitOnError⟩ : Genfut.FsOp).kind = .createDir →
      (⟨.createDir, "out_dir", .exitOnError⟩ : Genfut.FsOp).handling = .exitOnError) ∧
    ((⟨.createDir, "out_dir", .exitOnError⟩ : Genfut.FsOp).kind = .copyFile →
      (⟨.createDir, "out_dir", .exitOnError⟩ : Genfut.FsOp).handling = .exitOnError) ∧
    ((⟨.createDir, "out_dir", .exitOnError⟩ : Genfut.FsOp).kind = .createFile →
      (⟨.createDir, "out_dir", .exitOnError⟩ : Genfut.FsOp).handling = .panicOnError) ∧
    ((⟨.createDir, "out_dir", .exitOnError⟩ : Genfut.FsOp).handling = .ignored →
      (⟨.createDir, "out_dir", .exitOnError⟩ : Genfut.FsOp).kind = .writeFile) :=
  Genfut.genfutFsOps_error_handling ⟨true, true, true⟩ false
    ⟨.createDir, "out_dir", .exitOnError⟩ (by decide)

/-- C9: on a non-zero status the wrapper returns an error that is independent
of whatever was written into the out-parameter storage (so no out-value is
exposed, even partially written ones), and on status zero it returns the typed
out-values. -/
theorem Genfut.entryPointWrapper_status_mapping
    (status : Int) (o1 o2 : List Int) (h : status ≠ 0) :
    (Genfut.entryPointWrapper status o1 = Genfut.entryPointWrapper status o2 ∧
      ∀ v, Genfut.entryPointWrapper status o1 ≠ .ok v) ∧
    Genfut.entryPointWrapper 0 o1 = .ok o1 := by
  unfold Genfut.entryPointWrapper
  rw [if_neg h, if_neg h, if_pos rfl]
  exact ⟨⟨rfl, fun v hv => by cases hv⟩, rfl⟩

/-- C9 witness: a concrete failed call (status 1) hides the partially written
out storage, and a concrete successful call (status 0) returns it. -/
theorem Genfut.entryPointWrapper_status_mapping_witness :
    (Genfut.entryPointWrapper 1 [42] = Genfut.entryPointWrapper 1 [7] ∧
      ∀ v, Genfut.entryPointWrapper 1 [42] ≠ .ok v) ∧
    Genfut.entryPointWrapper 0 [42] = .ok [42] :=
  Genfut.entryPointWrapper_status_mapping 1 [42] [7] (by decide)

/-- C3 counterexample: the header `struct foo_1d;` consists of exactly one
array-type forward declaration of the spec's shape
`struct <identifier>_<digits>d;` (identifier part `foo`, rank digits `1`),
yet the scanner yields no capture at all, because `re_array_types` only
matches identifiers beginning with `futhark_`. -/
theorem Genfut.scanArrayTypes_misses_plain_identifier :
    ("foo".toList ≠ [] ∧ (∀ c ∈ "foo".toList, Genfut.isIdentChar c)
      ∧ "1".toList ≠ [] ∧ (∀ d ∈ "1".toList, d.isDigit)) ∧
    Genfut.scanArrayTypes (Genfut.specArrayDecl "foo".toList "1".toList) = [] := by
  constructor
  · refine ⟨by decide, by decide, by decide, by decide⟩
  · decide

/-- C3 amended: for a header text that is a sequence of array-type forward
declarations `struct futhark_<mid>_<digits>d;` (identifier beginning with
`futhark_`, one declaration per line), the scanner yields exactly one capture
per declaration, in source order, each capturing the full identifier
including the trailing rank suffix verbatim. -/
theorem Genfut.scanArrayTypes_decl_lines (ps : List (List Char × List Char))
    (h : ∀ p ∈ ps, p.1 ≠ [] ∧ (∀ c ∈ p.1, Genfut.isIdentChar c)
          ∧ p.2 ≠ [] ∧ (∀ d ∈ p.2, d.isDigit)) :
    Genfut.scanArrayTypes (Genfut.arrayDeclLines ps)
      = ps.map fun p => Genfut.specArrayIdent ("futhark_".toList ++ p.1) p.2 :=
  Genfut.scanArrayTypesAux_decl_lines ps h _ le_rfl

/-- C3 amended witness: a concrete two-declaration header yields exactly the
two identifiers, in order, verbatim. -/
theorem Genfut.scanArrayTypes_decl_lines_witness :
    Genfut.scanArrayTypes
        (Genfut.arrayDeclLines
          [("i32".toList, "2".toList), ("f64".toList, "1".toList)])
      = [Genfut.specArrayIdent ("futhark_".toList ++ "i32".toList) "2".toList,
         Genfut.specArrayIdent ("futhark_".toList ++ "f64".toList) "1".toList] :=
  Genfut.scanArrayTypes_decl_lines
    [("i32".toList, "2".toList), ("f64".toList, "1".toList)]
    (by decide)

/-- C4 counterexample: a header that is exactly an entry-point prototype with
zero parameters beyond the context handle — `int futhark_entry_main(struct
futhark_context *ctx);` — yields no entry-point capture at all: the regex
requires the literal comma after `*ctx` and at least one parameter group. -/
theorem Genfut.re_entry_points_rejects_zero_params :
    Genfut.scanEntryPoints (Genfut.specEntryNoParams "main".toList) = [] := by
  decide

/-- C4 amended: every capture the entry-point scanner yields contains a comma
(the final character of the literal `(struct futhark_context *ctx,` that the
pattern requires), so a prototype whose parameter list is exactly the context
handle — which contains no comma — is never matched; the grammar demands at
least one parameter beyond the context handle. -/
theorem Genfut.scanEntryPoints_capture_has_comma (cs cap : List Char)
    (h : cap ∈ Genfut.scanEntryPoints cs) : ',' ∈ cap := by
  obtain ⟨cs', rest, hm⟩ := Genfut.mem_scanEntryPointsAux _ cs cap h
  exact Genfut.matchEntryAt_comma cs' cap rest hm

/-- C4 amended witness: a concrete one-parameter prototype is captured whole
by the scanner, and the capture contains the comma. -/
theorem Genfut.scanEntryPoints_capture_has_comma_witness :
    ',' ∈ "int futhark_entry_add(struct futhark_context *ctx, int32_t *out0);".toList :=
  Genfut.scanEntryPoints_capture_has_comma
    "int futhark_entry_add(struct futhark_context *ctx, int32_t *out0);".toList
    "int futhark_entry_add(struct futhark_context *ctx, int32_t *out0);".toList
    (by decide)

/-- C5 counterexample: on a non-empty header (the context forward
declarations every generated header carries) in which the scanner finds zero
entry-point prototypes, processing is not aborted: the backend model is built
with an empty entry-point list, the equivalence check succeeds, and the run
continues into synthesis with that empty list. -/
theorem Genfut.zero_entry_points_not_fatal :
    "struct futhark_context;\nstruct futhark_context_config;\n".toList ≠ [] ∧
    Genfut.scanEntryPoints
      "struct futhark_context;\nstruct futhark_context_config;\n".toList = [] ∧
    Genfut.genfutCheck
      [("sequential_c",
        "struct futhark_context;\nstruct futhark_context_config;\n".toList)]
      = .ok ⟨"sequential_c", [], []⟩ := by
  refine ⟨by decide, by decide, rfl⟩

/-- C5 amended: a header in which the scanner finds zero entry points is not
a fatal condition — there is no emptiness check anywhere between scanning and
the equivalence fold, so a single-backend run succeeds for every header,
producing whatever (possibly empty) lists the scanners yield. -/
theorem Genfut.genfutCheck_single (b : String) (h : List Char) :
    Genfut.genfutCheck [(b, h)] = .ok (Genfut.buildModel b h) := rfl
